import Mathlib

/-!
Verification of the terrain-aware mesh planner (espeleo_planner).

This file is a shallow embedding of the planner's core code:
  * `scripts/mesh_planner/graph_search.py` (multi-source Dijkstra and the
    edge-weight functions), and
  * `scripts/mesh_planner/mesh_planner_base_open3d.py` (the graph
    preparation pipeline),
together with proofs about the embedded definitions.

Conventions of the embedding:
  * Node ids are natural numbers; 3D points are triples of reals.
  * Python dictionaries become functions into `Option`.
  * Python floats become real numbers.
  * Fallible code returns `Option` / `Except`; an unhandled Python
    exception is `none` / `Except.error`.
  * The Dijkstra loop is given explicit fuel; running out of fuel yields
    `none`, so every statement about a returned value is unaffected.
  * `mesh_helper.py` is not among the provided source files; its two
    numeric kernels used here are modelled from the specification text
    (see the doc comments on `angle_between_vectors`).
-/

noncomputable section

/-! ### Geometric primitives -/

/-- A 3D point / vector, as in the `(x, y, z)` tuples of the source. -/
abbrev V3 : Type := ℝ × ℝ × ℝ

/-- Dot product of two 3-vectors (`np.dot`). -/
def dot3 (a b : V3) : ℝ := a.1 * b.1 + a.2.1 * b.2.1 + a.2.2 * b.2.2

/-- Euclidean norm of a 3-vector (`np.linalg.norm`). -/
def norm3 (a : V3) : ℝ := Real.sqrt (dot3 a a)

/-- Componentwise difference of 3-vectors (numpy array subtraction). -/
def vsub (a b : V3) : V3 := (a.1 - b.1, a.2.1 - b.2.1, a.2.2 - b.2.2)

/-- Clamp a ratio into `[-1, 1]`. -/
def clampRatio (x : ℝ) : ℝ := max (-1) (min 1 x)

/-- Modelled from the spec: `mesh_helper.angle_between_vectors` is used by
`graph_search.py` but `mesh_helper.py` is not among the provided source
files.  Spec section 4.2: "`angle(u,v)` — the acute-safe angle in degrees
between two 3-vectors; implementations must clamp the dot-product ratio
into `[-1,1]` before arccos and return a value in `[0,180]`." -/
def angle_between_vectors (a b : V3) : ℝ :=
  Real.arccos (clampRatio (dot3 a b / (norm3 a * norm3 b))) * 180 / Real.pi

/-- The gravity vector `(0, 0, -1)`, the default `z_vector` argument of
`calculate_traversal_angle`. -/
def gravity : V3 := (0, 0, -1)

/-- Embeds `MeshGraphSearch.calculate_traversal_angle`: the angle between the face
normal and `(0,0,-1)`; inverted normals are folded by `|theta - 180|` when
the angle exceeds 90 degrees. -/
def calculate_traversal_angle (face_normal : V3) : ℝ :=
  let theta := angle_between_vectors face_normal gravity
  if theta > 90 then |theta - 180| else theta

/-! ### Edge-weight functions of `MeshGraphSearch` -/

/-- Embeds `MeshGraphSearch.weight_euclidean_distance`: 3D Euclidean distance
between the centroids of two nodes (`np.linalg.norm(a - b)`). -/
def weight_euclidean_distance (centroids : ℕ → V3) (v u : ℕ) : ℝ :=
  norm3 (vsub (centroids v) (centroids u))

/-- Python truthiness of the `predecessor` argument: `if not predecessor`
is taken both when the predecessor is `None` and when it is the node id
`0` (the integer `0` is falsy in Python). -/
def isFalsy : Option ℕ → Bool
  | none => true
  | some p => p == 0

/-- The `rot` quantity computed inside `MeshGraphSearch.weight_energy`:
without a (truthy) predecessor it is the angle between the two centroid
position vectors; with predecessor `p` it is the 3D angle between
`centroids[v] - centroids[p]` and `centroids[u] - centroids[v]`. -/
def energy_rot (centroids : ℕ → V3) (v u : ℕ) (predecessor : Option ℕ) : ℝ :=
  if isFalsy predecessor then
    angle_between_vectors (centroids v) (centroids u)
  else
    angle_between_vectors (vsub (centroids v) (centroids (predecessor.getD 0)))
      (vsub (centroids u) (centroids v))

/-- The `angle` quantity computed inside `MeshGraphSearch.weight_energy`
(before the `90 - angle` slope conversion). -/
def energy_pitch (centroids : ℕ → V3) (v u : ℕ) (predecessor : Option ℕ) : ℝ :=
  if isFalsy predecessor then
    angle_between_vectors (vsub (centroids u) (centroids v)) gravity
  else
    angle_between_vectors (vsub (centroids v) (centroids (predecessor.getD 0))) gravity

/-- Embeds `MeshGraphSearch.weight_energy`: the piecewise locomotion-energy cost. -/
def weight_energy (centroids : ℕ → V3) (v u : ℕ) (predecessor : Option ℕ) : ℝ :=
  let rot := energy_rot centroids v u predecessor
  let angle := 90 - energy_pitch centroids v u predecessor
  let dist := weight_euclidean_distance centroids v u
  if angle < 0 then
    ((37735.9 * rot) / 360 + (-475.07 * angle + 1089.3)) * dist
  else
    ((37735.9 * rot) / 360 + (564.97 * angle + 1364.9)) * dist

/-- Horizontal projection: the source slices centroids to their first two
components (`self.centroids[v][:2]`).  A 2-vector is embedded as a
3-vector with zero third component; dot products and norms coincide. -/
def projXY (a : V3) : V3 := (a.1, a.2.1, 0)

/-- Embeds `MeshGraphSearch.weight_rotation`: the horizontal rotation between a
pair of nodes; `0` without a (truthy) predecessor, otherwise the angle
between the XY-projected difference vectors. -/
def weight_rotation (centroids : ℕ → V3) (v u : ℕ) (predecessor : Option ℕ) : ℝ :=
  if isFalsy predecessor then 0
  else
    angle_between_vectors
      (vsub (projXY (centroids v)) (projXY (centroids (predecessor.getD 0))))
      (vsub (projXY (centroids u)) (projXY (centroids v)))

/-- Embeds `pred_node` extraction in `MeshGraphSearch.edge_weight_by_metric`:
`pred_node = pred[0] if len(pred) > 0 else None`. -/
def pred_node_of (pred : List ℕ) : Option ℕ := pred.head?

/-- An edge-weight oracle as used by `_dijkstra_multisource`: given the
edge `(v, u)` and the current predecessor list of `v`, produce the cost,
or `none` for an unusable edge. -/
abbrev Weight (α : Type) : Type := ℕ → ℕ → List ℕ → Option α

/-- Embeds `edge_weight_by_metric` for `GraphMetricType.SHORTEST`:
`weight_euclidean_distance(v, u)`; the predecessor list is ignored. -/
def shortest_metric_weight (centroids : ℕ → V3) : Weight ℝ :=
  fun v u _ => some (weight_euclidean_distance centroids v u)

/-- Embeds `edge_weight_by_metric` for `GraphMetricType.ENERGY`. -/
def energy_metric_weight (centroids : ℕ → V3) : Weight ℝ :=
  fun v u ps => some (weight_energy centroids v u (pred_node_of ps))

/-- Embeds `edge_weight_by_metric` for `GraphMetricType.STRAIGHTEST`. -/
def straightest_metric_weight (centroids : ℕ → V3) : Weight ℝ :=
  fun v u ps => some (weight_rotation centroids v u (pred_node_of ps))

/-! ### The multi-source Dijkstra of `MeshGraphSearch` -/

/-- The graph as consumed by `_dijkstra_multisource`: node membership
(`source not in self.G`) and the adjacency map (`self.G._adj`). -/
structure SearchGraph where
  nodes : List ℕ
  adj : ℕ → List ℕ

/-- The mutable state of one `_dijkstra_multisource` run.  `dist`, `seen`,
`paths` and `pred` are the four Python dictionaries; `fringe` is the heap
content (3-tuples `(distance, counter, node)`) and `counter` the
`itertools.count` tie-breaker.  `finals` is a ghost history field: it
records, in order, every `dist[v] = d` assignment (the non-stale pops);
no other field reads it. -/
structure DState (α : Type) where
  dist : ℕ → Option α
  seen : ℕ → Option α
  paths : ℕ → Option (List ℕ)
  pred : ℕ → Option (List ℕ)
  fringe : List (α × ℕ × ℕ)
  counter : ℕ
  finals : List (ℕ × α)

/-- Embeds `heapq.heappop`: remove the lexicographically least `(d, c)` entry.
The counters `c` are pairwise distinct in every reachable state, so this
is the unique heap minimum. -/
def popMin {α : Type} [LinearOrder α] :
    List (α × ℕ × ℕ) → Option ((α × ℕ × ℕ) × List (α × ℕ × ℕ))
  | [] => none
  | e :: es =>
    match popMin es with
    | none => some (e, es)
    | some (m, rest) =>
      if e.1 < m.1 ∨ (e.1 = m.1 ∧ e.2.1 ≤ m.2.1) then some (e, es)
      else some (m, e :: rest)

/-- Embeds `if cutoff is not None: if vu_dist > cutoff: continue`. -/
def cutoff_exceeded {α : Type} [LinearOrder α] (cutoff : Option α) (vud : α) : Bool :=
  match cutoff with
  | none => false
  | some co => decide (co < vud)

/-- The state update of the `elif u not in seen or vu_dist < seen[u]`
branch: `seen[u] = vu_dist`, push `(vu_dist, next(c), u)`,
`paths[u] = paths[v] + [u]`, `pred[u] = [v]`. -/
def push_update {α : Type} (v u : ℕ) (vud : α) (s : DState α) : DState α :=
  { s with
    seen := fun n => if n = u then some vud else s.seen n,
    fringe := (vud, s.counter, u) :: s.fringe,
    counter := s.counter + 1,
    paths := fun n => if n = u then some ((s.paths v).getD [] ++ [u]) else s.paths n,
    pred := fun n => if n = u then some [v] else s.pred n }

/-- The state update of the `elif vu_dist == seen[u]` branch:
`pred[u].append(v)`. -/
def pred_append {α : Type} (v u : ℕ) (s : DState α) : DState α :=
  { s with pred := fun n => if n = u then some ((s.pred u).getD [] ++ [v]) else s.pred n }

/-- The `for u, e in list(G_succ[v].items())` relaxation loop of
`_dijkstra_multisource`, ranging over the neighbor list of the freshly
finalized node `v` with `dist[v] = dv`.  The `ValueError('Contradictory
paths found: negative weights?')` raise is `none`. -/
def relax_neighbors {α : Type} [LinearOrderedAddCommMonoid α] (w : Weight α) (cutoff : Option α)
    (v : ℕ) (dv : α) : List ℕ → DState α → Option (DState α)
  | [], s => some s
  | u :: us, s =>
    match w v u ((s.pred v).getD []) with
    | none => relax_neighbors w cutoff v dv us s
    | some cost =>
      let vud := dv + cost
      if cutoff_exceeded cutoff vud then relax_neighbors w cutoff v dv us s
      else
        match s.dist u with
        | some du =>
          if vud < du then none
          else relax_neighbors w cutoff v dv us s
        | none =>
          match s.seen u with
          | none => relax_neighbors w cutoff v dv us (push_update v u vud s)
          | some su =>
            if vud < su then relax_neighbors w cutoff v dv us (push_update v u vud s)
            else if vud = su then relax_neighbors w cutoff v dv us (pred_append v u s)
            else relax_neighbors w cutoff v dv us s

/-- The `while fringe:` loop of `_dijkstra_multisource`, with explicit
fuel.  A stale pop (`if v in dist: continue`) drops the entry; a fresh pop
finalizes `dist[v] = d`, breaks if `v` is the target, and otherwise
relaxes the neighbors of `v`. -/
def dijkstra_loop {α : Type} [LinearOrderedAddCommMonoid α] (G : SearchGraph) (w : Weight α)
    (cutoff : Option α) (target : Option ℕ) : ℕ → DState α → Option (DState α)
  | 0, _ => none
  | fuel + 1, s =>
    match popMin s.fringe with
    | none => some s
    | some ((d, _, v), rest) =>
      if (s.dist v).isSome then
        dijkstra_loop G w cutoff target fuel { s with fringe := rest }
      else
        let s1 : DState α :=
          { s with
            fringe := rest,
            dist := fun n => if n = v then some d else s.dist n,
            finals := s.finals ++ [(v, d)] }
        if target = some v then some s1
        else
          match relax_neighbors w cutoff v d (G.adj v) s1 with
          | none => none
          | some s2 => dijkstra_loop G w cutoff target fuel s2

/-- The state before `_dijkstra_multisource` starts: `dist`/`seen` empty,
and `pred = {source: [] for source in sources}`,
`paths = {source: [source] for source in sources}` as initialized by
`dijkstra_search`. -/
def init_state {α : Type} (sources : List ℕ) : DState α :=
  { dist := fun _ => none, seen := fun _ => none,
    paths := fun n => if n ∈ sources then some [n] else none,
    pred := fun n => if n ∈ sources then some [] else none,
    fringe := [], counter := 0, finals := [] }

/-- The source loop of `_dijkstra_multisource`: for each source, raise
`NodeNotFound` (`none`) if it is not in `G`, else `seen[source] = 0` and
push `(0, next(c), source)`. -/
def init_sources {α : Type} [LinearOrderedAddCommMonoid α] (G : SearchGraph) :
    List ℕ → DState α → Option (DState α)
  | [], s => some s
  | src :: rest, s =>
    if src ∈ G.nodes then
      init_sources G rest
        { s with
          seen := fun n => if n = src then some 0 else s.seen n,
          fringe := s.fringe ++ [((0 : α), s.counter, src)],
          counter := s.counter + 1 }
    else none

/-- Embeds `_dijkstra_multisource(sources, pred, paths, cutoff, target)`,
returning the final search state (whose `dist` field is the returned
dictionary). -/
def dijkstra_multisource {α : Type} [LinearOrderedAddCommMonoid α] (G : SearchGraph) (w : Weight α)
    (cutoff : Option α) (target : Option ℕ) (sources : List ℕ) (fuel : ℕ) :
    Option (DState α) :=
  (init_sources G sources (init_state sources)).bind (dijkstra_loop G w cutoff target fuel)

/-- Python equality between an int element and the list it came from, as
evaluated elementwise by `sources in sources`: an `int == list` comparison
in Python is `False` (no exception), for every element. -/
def pyEqIntList (_x : ℕ) (_l : List ℕ) : Bool := false

/-- The guard `if sources in sources:` of `dijkstra_search`: Python list
membership tests the left operand against each element, so with `sources`
a list of int node ids this is `any(x == sources for x in sources)`. -/
def sources_in_sources (sources : List ℕ) : Bool :=
  sources.any (fun x => pyEqIntList x sources)

/-- Embeds `MeshGraphSearch.dijkstra_search(sources, target, cutoff)` for a
non-`None` target.  `ValueError` on empty sources, `NodeNotFound` and the
`NetworkXNoPath` `KeyError` handler are all `none`.  The
`if sources in sources: return 0, [sources]` early return is modelled
with a placeholder result value `(0, [])`: its Python value `[sources]`
(a list containing the sources list) is not a node path and the branch is
unreachable (`sources_in_sources_eq_false` below). -/
def dijkstra_search {α : Type} [LinearOrderedAddCommMonoid α] (G : SearchGraph) (w : Weight α)
    (sources : List ℕ) (target : ℕ) (cutoff : Option α) (fuel : ℕ) :
    Option (α × List ℕ) :=
  if sources.isEmpty then none
  else if sources_in_sources sources then some (0, [])
  else
    match dijkstra_multisource G w cutoff (some target) sources fuel with
    | none => none
    | some s =>
      match s.paths target, s.dist target with
      | some pt, some dt => some (dt, pt)
      | _, _ => none

/-- Sum of the weights of consecutive node pairs along a path. -/
def pathCost {α : Type} [LinearOrderedAddCommMonoid α] (w0 : ℕ → ℕ → α) : List ℕ → α
  | [] => 0
  | [_] => 0
  | a :: b :: rest => w0 a b + pathCost w0 (b :: rest)

/-! ### The graph preparation pipeline of `MeshPlannerBase` -/

/-- An undirected networkx graph: a node set and a set of undirected
edges, stored as ordered pairs `(min, max)`. -/
structure PyGraph where
  nodes : Finset ℕ
  edges : Finset (ℕ × ℕ)
deriving DecidableEq

/-- Normalize an undirected edge to an ordered pair. -/
def normPair (a b : ℕ) : ℕ × ℕ := (min a b, max a b)

/-- Embeds `G.add_edge(a, b)`: inserts both endpoints and the edge. -/
def addEdge (G : PyGraph) (a b : ℕ) : PyGraph :=
  { nodes := insert a (insert b G.nodes), edges := insert (normPair a b) G.edges }

/-- The neighbors of `v` in `G`. -/
def nbrFinset (G : PyGraph) (v : ℕ) : Finset ℕ :=
  G.nodes.filter (fun u => normPair v u ∈ G.edges)

/-- Embeds `nx.degree(G, v)`: the number of neighbors of `v`. -/
def nxDegree (G : PyGraph) (v : ℕ) : ℕ := (nbrFinset G v).card

/-- Embeds `sorted(G.nodes())`. -/
def sortedNodes (G : PyGraph) : List ℕ := G.nodes.sort (· ≤ ·)

/-- Embeds `MeshPlannerBase.extract_borders_from_graph(G, degree_tresh)`: the
sorted nodes whose degree is at most `degree_tresh`. -/
def extract_borders_from_graph (G : PyGraph) (degree_tresh : ℕ) : List ℕ :=
  (sortedNodes G).filter (fun v => nxDegree G v ≤ degree_tresh)

/-- The two `AttributeError`s that the frontier-extraction step of
`prepare_graph` can raise: `extract_frontiers_from_mesh` rebinds
`self.mesh_frontiers = []` (a Python list) and then calls the set method
`.add` on it, and `prepare_graph` then calls the set method
`.intersection` on the returned list. -/
inductive PyAttrError where
  | listAdd
  | listIntersection
deriving DecidableEq

/-- The vertex loop of `MeshPlannerBase.extract_frontiers_from_mesh`:
`mesh_frontiers` was just rebound to the empty list, so the first vertex
whose mesh adjacency size is at most 2 hits `list.add` and raises
`AttributeError`; the accumulator can never grow. -/
def extract_frontiers_loop (adjSize : ℕ → ℕ) : List ℕ → Except PyAttrError (List ℕ)
  | [] => Except.ok []
  | i :: rest =>
    if adjSize i ≤ 2 then Except.error PyAttrError.listAdd
    else extract_frontiers_loop adjSize rest

/-- Embeds `MeshPlannerBase.extract_frontiers_from_mesh`, for a mesh whose vertex
`i` has `adjSize i` adjacent vertices and `numVerts` deduplicated
vertices. -/
def extract_frontiers_from_mesh (adjSize : ℕ → ℕ) (numVerts : ℕ) :
    Except PyAttrError (List ℕ) :=
  extract_frontiers_loop adjSize (List.range numVerts)

/-- The frontier step of `MeshPlannerBase.prepare_graph`:
`mesh_frontiers = self.extract_frontiers_from_mesh()`,
`graph_frontiers = self.extract_borders_from_graph(G, degree_tresh=4)`,
`reachable_frontiers = mesh_frontiers.intersection(graph_frontiers)`.
Since `extract_frontiers_from_mesh` returns a Python list (when it does
not raise first), the `.intersection` call raises `AttributeError`. -/
def reachable_frontiers_step (adjSize : ℕ → ℕ) (numVerts : ℕ) (G : PyGraph) :
    Except PyAttrError (List ℕ) :=
  match extract_frontiers_from_mesh adjSize numVerts with
  | Except.error e => Except.error e
  | Except.ok _mesh_frontiers =>
    let _graph_frontiers := extract_borders_from_graph G 4
    Except.error PyAttrError.listIntersection

/-- One expansion step of a reachable node set: add all neighbors. -/
def expandComponent (G : PyGraph) (S : Finset ℕ) : Finset ℕ :=
  S ∪ S.biUnion (nbrFinset G)

/-- Iterated neighbor expansion. -/
def iterExpand (G : PyGraph) : ℕ → Finset ℕ → Finset ℕ
  | 0, S => S
  | n + 1, S => iterExpand G n (expandComponent G S)

/-- Embeds `nx.node_connected_component(G, source)`: the connected component of
`source`, or a `KeyError` (`Except.error`) when `source` is not a node of
`G`. -/
def node_connected_component (G : PyGraph) (source : ℕ) : Except Unit (Finset ℕ) :=
  if source ∈ G.nodes then Except.ok (iterExpand G G.nodes.card {source})
  else Except.error ()

/-- Embeds `G.subgraph(conn_nodes).copy()`. -/
def subgraphG (G : PyGraph) (S : Finset ℕ) : PyGraph :=
  { nodes := G.nodes ∩ S, edges := G.edges.filter (fun e => e.1 ∈ S ∧ e.2 ∈ S) }

/-- Embeds `MeshPlannerBase.remove_non_connected_components(G, source)`: restrict
`G` to the component of `source`; the `except Exception` handler catches
the `KeyError` of a missing source, logs a warning and returns the input
graph `G` unchanged. -/
def remove_non_connected_components (G : PyGraph) (source : ℕ) : PyGraph :=
  match node_connected_component G source with
  | Except.ok conn => subgraphG G conn
  | Except.error _ => G

/-- The tail of `scipy.spatial.KDTree(pts).query(p)`: scan the remaining
points, keeping the strictly closer one, so ties resolve to the smallest
index. -/
def kdQueryAux (p : V3) : List V3 → ℕ → ℝ × ℕ → ℝ × ℕ
  | [], _, best => best
  | q :: qs, i, best =>
    kdQueryAux p qs (i + 1)
      (if norm3 (vsub p q) < best.1 then (norm3 (vsub p q), i) else best)

/-- Embeds `KDTree(pts).query(p)`: the distance to the nearest stored point and
its index.  The empty case is unreachable behind the source's assertion
that the graph still has nodes. -/
def kdQuery (pts : List V3) (p : V3) : ℝ × ℕ :=
  match pts with
  | [] => (0, 0)
  | q :: qs => kdQueryAux p qs 1 (norm3 (vsub p q), 0)

/-- Embeds `borderless_g_dict[i]`: the kd-tree index back to a node id, via the
sorted node list the tree was built from. -/
def borderlessDict (base : List ℕ) (i : ℕ) : ℕ := base.getD i 0

/-- The unchecked-nodes loop of
`MeshPlannerBase.reconnect_non_removable_nodes`: each missing unchecked
node is added with one edge to its nearest surviving node. -/
def reconnect_unchecked_loop (c : ℕ → V3) (base : List ℕ) : List ℕ → PyGraph → PyGraph
  | [], G => G
  | n :: rest, G =>
    reconnect_unchecked_loop c base rest
      (if n ∈ G.nodes then G
       else addEdge G n (borderlessDict base (kdQuery (base.map c) (c n)).2))

/-- One iteration of the checked-nodes loop of
`reconnect_non_removable_nodes`.  When the nearest surviving node is
farther than `max_distance`, the source executes
`nearest_checked_nodes.add(nearest_idx)`: it inserts the raw kd-tree
index, not `borderless_g_dict[nearest_idx]`. -/
def reconnect_checked_step (c : ℕ → V3) (base : List ℕ) (max_distance : ℝ)
    (acc : PyGraph × Finset ℕ) (n : ℕ) : PyGraph × Finset ℕ :=
  if n ∈ acc.1.nodes then (acc.1, insert n acc.2)
  else
    let q := kdQuery (base.map c) (c n)
    if q.1 ≤ max_distance then (addEdge acc.1 n (borderlessDict base q.2), insert n acc.2)
    else (acc.1, insert q.2 acc.2)

/-- Embeds `MeshPlannerBase.reconnect_non_removable_nodes(G, checked_nodes,
unchecked_nodes, max_distance)`.  The kd-tree is built once over the
centroids of the sorted surviving nodes; `none` models the failing
`assert` when the graph has no nodes left. -/
def reconnect_non_removable_nodes (c : ℕ → V3) (G : PyGraph) (checked_nodes : List ℕ)
    (unchecked_nodes : List ℕ) (max_distance : ℝ) : Option (PyGraph × Finset ℕ) :=
  let base := sortedNodes G
  if base = [] then none
  else
    let G1 := reconnect_unchecked_loop c base unchecked_nodes G
    some (checked_nodes.foldl (reconnect_checked_step c base max_distance) (G1, (∅ : Finset ℕ)))

/-! ### Concrete fixtures used by witnesses and counterexamples -/

/-- A one-node search graph with node `7` and no edges. -/
def exGraphSingle7 : SearchGraph := ⟨[7], fun _ => []⟩

/-- A constant natural-number edge weight of `1`. -/
def exWeightOne : Weight ℕ := fun _ _ _ => some 1

/-- A two-node search graph `0 — 1`. -/
def exGraphPair : SearchGraph := ⟨[0, 1], fun v => if v = 0 then [1] else [0]⟩

/-- A one-node search graph with node `0` and no edges. -/
def exGraphSingle0 : SearchGraph := ⟨[0], fun _ => []⟩

/-- Centroids placing every node at the origin. -/
def exCentroidsZero : ℕ → V3 := fun _ => (0, 0, 0)

/-- Centroids with node `0` at the origin and all others at `(1,0,0)`. -/
def exCentroidsUnit : ℕ → V3 := fun n => if n = 0 then (0, 0, 0) else (1, 0, 0)

/-- Centroids for the rotation counterexample: predecessor `3` at the
origin, `v = 1` at `(1,0,0)` and `u = 2` at `(2,0,1)`, so the 3D heading
change at `v` is 45 degrees while its horizontal projection is 0. -/
def exCentroidsRot : ℕ → V3 := fun n =>
  if n = 1 then (1, 0, 0) else if n = 2 then (2, 0, 1) else (0, 0, 0)

/-- A two-node pipeline graph with nodes `1, 2` and the edge `(1, 2)`. -/
def exPyGraph12 : PyGraph := ⟨{1, 2}, {(1, 2)}⟩

/-- A two-node pipeline graph with nodes `5, 7` and the edge `(5, 7)`. -/
def exPyGraph57 : PyGraph := ⟨{5, 7}, {(5, 7)}⟩

/-- Centroids for the reconnection counterexample: the anchor `2` sits at
`(3,0,0)`, three units from node `5` at the origin and seven units from
node `7` at `(10,0,0)`. -/
def exCentroidsAnchor : ℕ → V3 := fun n =>
  if n = 2 then (3, 0, 0) else if n = 5 then (0, 0, 0)
  else if n = 7 then (10, 0, 0) else (0, 0, 0)

/-! ### Search-state invariants used in the proofs -/

/-- Cost-consistency invariant of a `_dijkstra_multisource` state, for a
predecessor-independent total edge weight `w0`: every `seen` value is the
cost of the recorded path (which ends at its node), every heap entry is
at least the `seen` value of its node, every seen-but-not-finalized node
still has a heap entry carrying exactly its `seen` value, and finalized
distances agree with `seen`. -/
structure CostInv {a : Type} [LinearOrderedAddCommMonoid a] (w0 : ℕ → ℕ → a) (s : DState a) : Prop where
  seen_paths : ∀ u su, s.seen u = some su →
    ∃ p, s.paths u = some p ∧ pathCost w0 p = su ∧ p.getLast? = some u
  fringe_seen : ∀ e ∈ s.fringe, ∃ su, s.seen e.2.2 = some su ∧ su ≤ e.1
  seen_fringe : ∀ u su, s.seen u = some su → s.dist u = none → ∃ cc, (su, cc, u) ∈ s.fringe
  dist_seen : ∀ v dv, s.dist v = some dv → s.seen v = some dv

/-- Monotonicity invariant of a `_dijkstra_multisource` state: the ghost
history of finalized distances is non-decreasing, every heap entry
dominates every finalized distance, and the history agrees with `dist`. -/
structure MonoInv {a : Type} [LinearOrderedAddCommMonoid a] (s : DState a) : Prop where
  finals_chain : List.Chain' (fun x y => x ≤ y) (s.finals.map Prod.snd)
  finals_le_fringe : ∀ e ∈ s.fringe, ∀ f ∈ s.finals, f.2 ≤ e.1
  finals_dist : ∀ f ∈ s.finals, s.dist f.1 = some f.2

/-! ### Basic facts about the angle kernel -/

theorem angle_between_vectors_nonneg (a b : V3) : 0 ≤ angle_between_vectors a b := by
  unfold angle_between_vectors
  have h1 := Real.arccos_nonneg (clampRatio (dot3 a b / (norm3 a * norm3 b)))
  have h2 := Real.pi_pos
  positivity

theorem angle_between_vectors_le_180 (a b : V3) : angle_between_vectors a b ≤ 180 := by
  unfold angle_between_vectors
  have h1 := Real.arccos_le_pi (clampRatio (dot3 a b / (norm3 a * norm3 b)))
  have h2 := Real.pi_pos
  rw [div_le_iff₀ h2]
  nlinarith

theorem angle_between_vectors_self_unit (a : V3) (h : dot3 a a = 1) :
    angle_between_vectors a a = 0 := by
  unfold angle_between_vectors
  rw [h]
  have hn : norm3 a = 1 := by rw [norm3, h, Real.sqrt_one]
  rw [hn]
  norm_num [clampRatio, Real.arccos_one]

/-- C7: for every 3-vector `n`, `calculate_traversal_angle n` lies in
`[0, 90]`; it equals the angle between `n` and `(0,0,-1)` when that angle
is at most 90 degrees and `|theta - 180|` otherwise; and the normal
pointing straight down, `(0,0,-1)` itself, yields traversal angle 0. -/
theorem traversal_angle_range_and_fold :
    (∀ n : V3,
      0 ≤ calculate_traversal_angle n ∧ calculate_traversal_angle n ≤ 90 ∧
      calculate_traversal_angle n =
        (if 90 < angle_between_vectors n gravity
         then |angle_between_vectors n gravity - 180|
         else angle_between_vectors n gravity)) ∧
    calculate_traversal_angle gravity = 0 := by
  constructor
  · intro n
    have h0 := angle_between_vectors_nonneg n gravity
    have h180 := angle_between_vectors_le_180 n gravity
    unfold calculate_traversal_angle
    set t := angle_between_vectors n gravity with ht
    by_cases hgt : t > 90
    · have habs : |t - 180| = 180 - t := by
        rw [abs_of_nonpos (by linarith)]; ring
      simp only [if_pos hgt, habs]
      exact ⟨by linarith, by linarith, trivial⟩
    · simp only [if_neg hgt]
      push_neg at hgt
      exact ⟨h0, hgt, trivial⟩
  · have hd : dot3 gravity gravity = 1 := by norm_num [dot3, gravity]
    have := angle_between_vectors_self_unit gravity hd
    unfold calculate_traversal_angle
    rw [this]
    norm_num

/-- C8: the ENERGY weight is strictly positive whenever the Euclidean
distance between the two nodes is strictly positive, for any predecessor
context. -/
theorem energy_weight_pos (c : ℕ → V3) (v u : ℕ) (pr : Option ℕ)
    (h : 0 < weight_euclidean_distance c v u) : 0 < weight_energy c v u pr := by
  have hrot : 0 ≤ energy_rot c v u pr := by
    unfold energy_rot
    split <;> exact angle_between_vectors_nonneg _ _
  unfold weight_energy
  by_cases hA : 90 - energy_pitch c v u pr < 0
  · simp only [if_pos hA]
    apply mul_pos _ h
    nlinarith
  · simp only [if_neg hA]
    push_neg at hA
    apply mul_pos _ h
    nlinarith

/-- Witness for C8: nodes `0` and `1` of `exCentroidsUnit` are one unit
apart, and the ENERGY weight there is strictly positive. -/
theorem energy_weight_pos_witness :
    0 < weight_euclidean_distance exCentroidsUnit 0 1 ∧
    0 < weight_energy exCentroidsUnit 0 1 none := by
  have h : 0 < weight_euclidean_distance exCentroidsUnit 0 1 := by
    have : weight_euclidean_distance exCentroidsUnit 0 1 = Real.sqrt 1 := by
      norm_num [weight_euclidean_distance, exCentroidsUnit, vsub, norm3, dot3]
    rw [this, Real.sqrt_one]
    norm_num
  exact ⟨h, energy_weight_pos exCentroidsUnit 0 1 none h⟩

/-- C10: a predecessor with node id `0` is falsy in the Python check
`if not predecessor`, so ENERGY computes its no-predecessor `rot` and
`pitch`, and the rotation weight returns 0, exactly as with no
predecessor at all; the same holds through the metric dispatch with
predecessor list `[0]`. -/
theorem pred_zero_behaves_as_absent (c : ℕ → V3) (v u : ℕ) :
    weight_energy c v u (some 0) = weight_energy c v u none ∧
    energy_rot c v u (some 0) = angle_between_vectors (c v) (c u) ∧
    energy_pitch c v u (some 0) = angle_between_vectors (vsub (c u) (c v)) gravity ∧
    weight_rotation c v u (some 0) = 0 ∧
    weight_rotation c v u (some 0) = weight_rotation c v u none ∧
    pred_node_of [0] = some 0 ∧
    energy_metric_weight c v u [0] = energy_metric_weight c v u [] ∧
    straightest_metric_weight c v u [0] = straightest_metric_weight c v u [] :=
  ⟨rfl, rfl, rfl, rfl, rfl, rfl, rfl, rfl⟩

/-- Counterexample for C9: with predecessor `3` at the origin, `v = 1` at
`(1,0,0)` and `u = 2` at `(2,0,1)`, the STRAIGHTEST weight is 0 (the
horizontal projections are parallel) while the `rot` of the ENERGY
formula, the 3D heading change, is strictly positive (45 degrees); the
two disagree. -/
theorem rotation_weight_differs_from_energy_rot :
    weight_rotation exCentroidsRot 1 2 (some 3) = 0 ∧
    0 < energy_rot exCentroidsRot 1 2 (some 3) ∧
    weight_rotation exCentroidsRot 1 2 (some 3) ≠ energy_rot exCentroidsRot 1 2 (some 3) := by
  have hc1 : exCentroidsRot 1 = (1, 0, 0) := by norm_num [exCentroidsRot]
  have hc2 : exCentroidsRot 2 = (2, 0, 1) := by norm_num [exCentroidsRot]
  have hc3 : exCentroidsRot 3 = (0, 0, 0) := by norm_num [exCentroidsRot]
  have hf : isFalsy (some 3) = false := rfl
  have h1 : weight_rotation exCentroidsRot 1 2 (some 3) = 0 := by
    unfold weight_rotation
    rw [hf]
    simp only [Bool.false_eq_true, if_false, hc1, hc2, hc3, Option.getD]
    have hv1 : vsub (projXY (1, 0, 0)) (projXY (0, 0, 0)) = ((1 : ℝ), (0 : ℝ), (0 : ℝ)) := by
      norm_num [projXY, vsub]
    have hv2 : vsub (projXY (2, 0, 1)) (projXY (1, 0, 0)) = ((1 : ℝ), (0 : ℝ), (0 : ℝ)) := by
      norm_num [projXY, vsub]
    rw [hv1, hv2]
    exact angle_between_vectors_self_unit (1, 0, 0) (by norm_num [dot3])
  have h2 : 0 < energy_rot exCentroidsRot 1 2 (some 3) := by
    unfold energy_rot
    rw [hf]
    simp only [Bool.false_eq_true, if_false, hc1, hc2, hc3, Option.getD]
    have hv1 : vsub ((1 : ℝ), (0 : ℝ), (0 : ℝ)) (0, 0, 0) = (1, 0, 0) := by
      norm_num [vsub]
    have hv2 : vsub ((2 : ℝ), (0 : ℝ), (1 : ℝ)) (1, 0, 0) = (1, 0, 1) := by
      norm_num [vsub]
    rw [hv1, hv2]
    have hs2 : (1 : ℝ) < Real.sqrt 2 := by
      calc (1 : ℝ) = Real.sqrt 1 := Real.sqrt_one.symm
      _ < Real.sqrt 2 := Real.sqrt_lt_sqrt (by norm_num) (by norm_num)
    have hs2pos : (0 : ℝ) < Real.sqrt 2 := by linarith
    have hdot : dot3 ((1 : ℝ), (0 : ℝ), (0 : ℝ)) (1, 0, 1) = 1 := by norm_num [dot3]
    have hn1 : norm3 ((1 : ℝ), (0 : ℝ), (0 : ℝ)) = 1 := by
      rw [norm3]
      norm_num [dot3, Real.sqrt_one]
    have hn2 : norm3 ((1 : ℝ), (0 : ℝ), (1 : ℝ)) = Real.sqrt 2 := by
      rw [norm3]
      norm_num [dot3]
    unfold angle_between_vectors
    rw [hdot, hn1, hn2, one_mul]
    have hlt : 1 / Real.sqrt 2 < 1 := (div_lt_one hs2pos).mpr hs2
    have hge : (0 : ℝ) < 1 / Real.sqrt 2 := by positivity
    have hclamp : clampRatio (1 / Real.sqrt 2) = 1 / Real.sqrt 2 := by
      rw [clampRatio, min_eq_right hlt.le, max_eq_right (by linarith)]
    rw [hclamp]
    have harc : 0 < Real.arccos (1 / Real.sqrt 2) := Real.arccos_pos.mpr hlt
    exact div_pos (mul_pos harc (by norm_num)) Real.pi_pos
  refine ⟨h1, h2, ?_⟩
  rw [h1]
  exact ne_of_lt h2

/-- C9 as amended: the STRAIGHTEST weight is the heading change computed
on the horizontal (x,y) projections of `position[v] - position[p]` and
`position[u] - position[v]` (not the 3D `rot` of the ENERGY formula), and
it is 0 when no predecessor exists. -/
theorem rotation_weight_is_2d_heading_change (c : ℕ → V3) (v u p : ℕ) (hp : p ≠ 0) :
    weight_rotation c v u (some p) =
      angle_between_vectors (projXY (vsub (c v) (c p))) (projXY (vsub (c u) (c v))) ∧
    weight_rotation c v u none = 0 := by
  constructor
  · have hf : isFalsy (some p) = false := by simp [isFalsy, hp]
    unfold weight_rotation
    rw [hf]
    simp only [Bool.false_eq_true, if_false, Option.getD]
    congr 1 <;> simp [projXY, vsub]
  · rfl

/-- Witness for the amended C9 at the fixture centroids with predecessor
`3`. -/
theorem rotation_weight_is_2d_heading_change_witness :
    weight_rotation exCentroidsRot 1 2 (some 3) =
      angle_between_vectors (projXY (vsub (exCentroidsRot 1) (exCentroidsRot 3)))
        (projXY (vsub (exCentroidsRot 2) (exCentroidsRot 1))) ∧
    weight_rotation exCentroidsRot 1 2 none = 0 :=
  rotation_weight_is_2d_heading_change exCentroidsRot 1 2 3 (by decide)

/-! ### The early-return guard of `dijkstra_search` (C3) -/

/-- The guard `if sources in sources:` never fires: each Python `==`
comparison is between an int element and the sources list. -/
theorem sources_in_sources_eq_false (sources : List ℕ) :
    sources_in_sources sources = false := by
  simp [sources_in_sources, pyEqIntList]

/-- C3, evaluated at the failing input `sources = [7]`, `target = 7`:
the guard `if sources in sources:` does not fire even though the target
is a source, so the search does not return immediately; the main loop
runs (it finalizes one node, as the ghost `finals` history shows) and
only then returns cost `0` with path `[7]`. -/
theorem target_in_sources_runs_main_loop :
    sources_in_sources [7] = false ∧
    dijkstra_search exGraphSingle7 exWeightOne [7] 7 none 5 = some ((0 : ℕ), [7]) ∧
    (dijkstra_multisource exGraphSingle7 exWeightOne none (some 7) [7] 5).map
      DState.finals = some [(7, (0 : ℕ))] :=
  ⟨rfl, rfl, rfl⟩

/-! ### The frontier-extraction step always raises (C4) -/

theorem extract_frontiers_loop_cases (adjSize : ℕ → ℕ) (l : List ℕ) :
    extract_frontiers_loop adjSize l = Except.ok [] ∨
    extract_frontiers_loop adjSize l = Except.error PyAttrError.listAdd := by
  induction l with
  | nil => exact Or.inl rfl
  | cons i rest ih =>
    by_cases h : adjSize i ≤ 2
    · right
      simp [extract_frontiers_loop, h]
    · simpa [extract_frontiers_loop, h] using ih

/-- C4: the frontier step of `prepare_graph` raises an `AttributeError`
for every mesh and every filtered graph — `extract_frontiers_from_mesh`
rebinds `self.mesh_frontiers` to a Python list, so either the `.add` call
on the first frontier vertex raises, or (with no frontier vertex) the
`.intersection` call on the returned list raises.  In particular the
claimed mesh-frontier/graph-frontier intersection is never produced.  At
the concrete failing input (a 3-vertex mesh whose vertices all have
adjacency size 2) the error is the `.add` one. -/
theorem frontier_step_always_raises :
    (∀ (adjSize : ℕ → ℕ) (numVerts : ℕ) (G : PyGraph),
      ∃ e, reachable_frontiers_step adjSize numVerts G = Except.error e) ∧
    reachable_frontiers_step (fun _ => 2) 3 ⟨∅, ∅⟩ = Except.error PyAttrError.listAdd := by
  constructor
  · intro adjSize numVerts G
    unfold reachable_frontiers_step extract_frontiers_from_mesh
    rcases extract_frontiers_loop_cases adjSize (List.range numVerts) with h | h
    · rw [h]
      exact ⟨PyAttrError.listIntersection, rfl⟩
    · rw [h]
      exact ⟨PyAttrError.listAdd, rfl⟩
  · rfl

/-! ### A missing source is silently recovered, not fatal (C5) -/

/-- Counterexample for C5: with source `0` absent from the two-node graph,
the component lookup raises (`KeyError`), but
`remove_non_connected_components` catches it and returns the unfiltered
input graph unchanged — the pipeline continues rather than failing. -/
theorem missing_source_returns_unfiltered_graph :
    node_connected_component exPyGraph12 0 = Except.error () ∧
    remove_non_connected_components exPyGraph12 0 = exPyGraph12 := by
  have h : (0 : ℕ) ∉ exPyGraph12.nodes := by decide
  constructor
  · simp [node_connected_component, h]
  · simp [remove_non_connected_components, node_connected_component, h]

/-- C5 as amended: whenever the source node is absent from the graph,
`remove_non_connected_components` returns its input graph unchanged (the
`except` handler logs and continues), instead of failing the request. -/
theorem remove_non_connected_components_missing_source (G : PyGraph) (s : ℕ)
    (h : s ∉ G.nodes) : remove_non_connected_components G s = G := by
  simp [remove_non_connected_components, node_connected_component, h]

/-- Witness for the amended C5 at the concrete two-node graph. -/
theorem remove_non_connected_components_missing_source_witness :
    (0 : ℕ) ∉ exPyGraph12.nodes ∧ remove_non_connected_components exPyGraph12 0 = exPyGraph12 :=
  ⟨by decide, remove_non_connected_components_missing_source exPyGraph12 0 (by decide)⟩

/-! ### Anchor reconnection (C6) -/

theorem kdQueryAux_index_lt (p : V3) (l : List V3) :
    ∀ (i : ℕ) (best : ℝ × ℕ), best.2 < i → (kdQueryAux p l i best).2 < i + l.length := by
  induction l with
  | nil =>
    intro i best h
    simpa [kdQueryAux] using h
  | cons q qs ih =>
    intro i best h
    have hstep : (if norm3 (vsub p q) < best.1 then (norm3 (vsub p q), i) else best).2 < i + 1 := by
      split
      · exact Nat.lt_succ_self i
      · exact Nat.lt_succ_of_lt h
    have hrec := ih (i + 1) _ hstep
    rw [kdQueryAux]
    have hlen : i + (q :: qs).length = (i + 1) + qs.length := by
      simp [List.length_cons]
      omega
    rw [hlen]
    exact hrec

theorem kdQuery_index_lt (pts : List V3) (p : V3) (h : pts ≠ []) :
    (kdQuery pts p).2 < pts.length := by
  cases pts with
  | nil => exact absurd rfl h
  | cons q qs =>
    have := kdQueryAux_index_lt p qs 1 (norm3 (vsub p q), 0) (by norm_num)
    simpa [kdQuery, Nat.add_comm] using this

theorem borderlessDict_mem_of_lt (G : PyGraph) (i : ℕ) (h : i < (sortedNodes G).length) :
    borderlessDict (sortedNodes G) i ∈ G.nodes := by
  rw [borderlessDict, List.getD_eq_getElem _ _ h]
  have hmem := List.getElem_mem h
  have hsort : (sortedNodes G)[i] ∈ G.nodes.sort (fun a b => a ≤ b) := hmem
  exact (Finset.mem_sort _).mp hsort

theorem reconnect_unchecked_loop_nodes_subset (c : ℕ → V3) (base : List ℕ) :
    ∀ (l : List ℕ) (G : PyGraph), G.nodes ⊆ (reconnect_unchecked_loop c base l G).nodes := by
  intro l
  induction l with
  | nil => intro G; exact fun x hx => hx
  | cons n rest ih =>
    intro G
    refine fun x hx => ?_
    have hsub : G.nodes ⊆
        (if n ∈ G.nodes then G
         else addEdge G n (borderlessDict base (kdQuery (base.map c) (c n)).2)).nodes := by
      split
      · exact fun y hy => hy
      · intro y hy
        simp [addEdge, Finset.mem_insert, hy]
    exact ih _ (hsub hx)

theorem reconnect_checked_fold_mono (c : ℕ → V3) (base : List ℕ) (maxd : ℝ) :
    ∀ (l : List ℕ) (acc : PyGraph × Finset ℕ),
      acc.1.nodes ⊆ (l.foldl (reconnect_checked_step c base maxd) acc).1.nodes ∧
      acc.1.edges ⊆ (l.foldl (reconnect_checked_step c base maxd) acc).1.edges ∧
      acc.2 ⊆ (l.foldl (reconnect_checked_step c base maxd) acc).2 := by
  intro l
  induction l with
  | nil => intro acc; exact ⟨fun _ h => h, fun _ h => h, fun _ h => h⟩
  | cons m rest ih =>
    intro acc
    have hstep :
        acc.1.nodes ⊆ (reconnect_checked_step c base maxd acc m).1.nodes ∧
        acc.1.edges ⊆ (reconnect_checked_step c base maxd acc m).1.edges ∧
        acc.2 ⊆ (reconnect_checked_step c base maxd acc m).2 := by
      unfold reconnect_checked_step
      split
      · exact ⟨fun _ h => h, fun _ h => h, fun x hx => Finset.mem_insert_of_mem hx⟩
      · dsimp only
        split
        · refine ⟨?_, ?_, fun x hx => Finset.mem_insert_of_mem hx⟩
          · intro y hy
            simp [addEdge, Finset.mem_insert, hy]
          · intro y hy
            simp [addEdge, Finset.mem_insert, hy]
        · exact ⟨fun _ h => h, fun _ h => h, fun x hx => Finset.mem_insert_of_mem hx⟩
    have := ih (reconnect_checked_step c base maxd acc m)
    simp only [List.foldl_cons]
    exact ⟨fun x hx => this.1 (hstep.1 hx), fun x hx => this.2.1 (hstep.2.1 hx),
      fun x hx => this.2.2 (hstep.2.2 hx)⟩

theorem reconnect_checked_fold_not_node (c : ℕ → V3) (base : List ℕ) (maxd : ℝ)
    (hbase : base ≠ []) :
    ∀ (l : List ℕ) (acc : PyGraph × Finset ℕ) (x : ℕ),
      x ∉ acc.1.nodes → x ∉ l →
      (∀ i, i < base.length → borderlessDict base i ∈ acc.1.nodes) →
      x ∉ (l.foldl (reconnect_checked_step c base maxd) acc).1.nodes := by
  intro l
  induction l with
  | nil => intro acc x hx _ _; simpa using hx
  | cons m rest ih =>
    intro acc x hx hxl hdict
    have hxm : x ≠ m := by
      intro h
      exact hxl (h ▸ List.mem_cons_self m rest)
    have hxrest : x ∉ rest := fun h => hxl (List.mem_cons_of_mem m h)
    rw [List.foldl_cons]
    by_cases hm : m ∈ acc.1.nodes
    · have hstep : reconnect_checked_step c base maxd acc m = (acc.1, insert m acc.2) := by
        unfold reconnect_checked_step
        rw [if_pos hm]
      rw [hstep]
      exact ih _ x hx hxrest hdict
    · have hqlt : (kdQuery (base.map c) (c m)).2 < base.length := by
        have hne : base.map c ≠ [] := by
          intro h
          exact hbase (List.map_eq_nil_iff.mp h)
        have := kdQuery_index_lt (base.map c) (c m) hne
        simpa using this
      have hdm : borderlessDict base (kdQuery (base.map c) (c m)).2 ∈ acc.1.nodes :=
        hdict _ hqlt
      by_cases hle : (kdQuery (base.map c) (c m)).1 ≤ maxd
      · have hstep : reconnect_checked_step c base maxd acc m =
            (addEdge acc.1 m (borderlessDict base (kdQuery (base.map c) (c m)).2),
              insert m acc.2) := by
          unfold reconnect_checked_step
          rw [if_neg hm]
          dsimp only
          rw [if_pos hle]
        rw [hstep]
        refine ih _ x ?_ hxrest ?_
        · simp only [addEdge, Finset.mem_insert]
          push_neg
          refine ⟨hxm, ?_, hx⟩
          intro h
          exact hx (h ▸ hdm)
        · intro i hi
          simp only [addEdge, Finset.mem_insert]
          exact Or.inr (Or.inr (hdict i hi))
      · have hstep : reconnect_checked_step c base maxd acc m =
            (acc.1, insert (kdQuery (base.map c) (c m)).2 acc.2) := by
          unfold reconnect_checked_step
          rw [if_neg hm]
          dsimp only
          rw [if_neg hle]
        rw [hstep]
        exact ih _ x hx hxrest hdict

theorem reconnect_checked_fold_spec (c : ℕ → V3) (base : List ℕ) (maxd : ℝ)
    (hbase : base ≠ []) :
    ∀ (l : List ℕ) (acc : PyGraph × Finset ℕ) (n : ℕ),
      n ∈ l → l.Nodup →
      (∀ m ∈ l, m ∉ acc.1.nodes) →
      (∀ i, i < base.length → borderlessDict base i ∈ acc.1.nodes) →
      (((kdQuery (base.map c) (c n)).1 ≤ maxd →
          n ∈ (l.foldl (reconnect_checked_step c base maxd) acc).2 ∧
          n ∈ (l.foldl (reconnect_checked_step c base maxd) acc).1.nodes ∧
          normPair n (borderlessDict base (kdQuery (base.map c) (c n)).2) ∈
            (l.foldl (reconnect_checked_step c base maxd) acc).1.edges) ∧
       (¬ (kdQuery (base.map c) (c n)).1 ≤ maxd →
          (kdQuery (base.map c) (c n)).2 ∈
            (l.foldl (reconnect_checked_step c base maxd) acc).2 ∧
          n ∉ (l.foldl (reconnect_checked_step c base maxd) acc).1.nodes)) := by
  intro l
  induction l with
  | nil => intro acc n hn; exact absurd hn (List.not_mem_nil n)
  | cons m rest ih =>
    intro acc n hn hnd hmiss hdict
    have hm : m ∉ acc.1.nodes := hmiss m (List.mem_cons_self m rest)
    have hmrest : m ∉ rest := (List.nodup_cons.mp hnd).1
    have hndrest : rest.Nodup := (List.nodup_cons.mp hnd).2
    have hqmlt : (kdQuery (base.map c) (c m)).2 < base.length := by
      have hne : base.map c ≠ [] := by
        intro h
        exact hbase (List.map_eq_nil_iff.mp h)
      have := kdQuery_index_lt (base.map c) (c m) hne
      simpa using this
    have hdm : borderlessDict base (kdQuery (base.map c) (c m)).2 ∈ acc.1.nodes :=
      hdict _ hqmlt
    rw [List.foldl_cons]
    by_cases hle : (kdQuery (base.map c) (c m)).1 ≤ maxd
    · have hstep : reconnect_checked_step c base maxd acc m =
          (addEdge acc.1 m (borderlessDict base (kdQuery (base.map c) (c m)).2),
            insert m acc.2) := by
        unfold reconnect_checked_step
        rw [if_neg hm]
        dsimp only
        rw [if_pos hle]
      rw [hstep]
      rcases List.mem_cons.mp hn with heq | hnrest
      · subst heq
        have hmono := reconnect_checked_fold_mono c base maxd rest
          (addEdge acc.1 n (borderlessDict base (kdQuery (base.map c) (c n)).2),
            insert n acc.2)
        constructor
        · intro _
          refine ⟨hmono.2.2 (Finset.mem_insert_self n acc.2), ?_, ?_⟩
          · exact hmono.1 (by simp [addEdge])
          · exact hmono.2.1 (by simp [addEdge])
        · intro hc
          exact absurd hle hc
      · have hne : n ≠ m := by
          intro h
          exact hmrest (h ▸ hnrest)
        refine ih _ n hnrest hndrest ?_ ?_
        · intro m' hm'
          have h1 : m' ∉ acc.1.nodes := hmiss m' (List.mem_cons_of_mem m hm')
          have h2 : m' ≠ m := by
            intro h
            exact hmrest (h ▸ hm')
          simp only [addEdge, Finset.mem_insert]
          push_neg
          refine ⟨h2, ?_, h1⟩
          intro h
          exact h1 (h ▸ hdm)
        · intro i hi
          simp only [addEdge, Finset.mem_insert]
          exact Or.inr (Or.inr (hdict i hi))
    · have hstep : reconnect_checked_step c base maxd acc m =
          (acc.1, insert (kdQuery (base.map c) (c m)).2 acc.2) := by
        unfold reconnect_checked_step
        rw [if_neg hm]
        dsimp only
        rw [if_neg hle]
      rw [hstep]
      rcases List.mem_cons.mp hn with heq | hnrest
      · subst heq
        have hmono := reconnect_checked_fold_mono c base maxd rest
          (acc.1, insert (kdQuery (base.map c) (c n)).2 acc.2)
        constructor
        · intro hc
          exact absurd hc hle
        · intro _
          refine ⟨hmono.2.2 (Finset.mem_insert_self _ acc.2), ?_⟩
          exact reconnect_checked_fold_not_node c base maxd hbase rest _ n hm hmrest hdict
      · refine ih _ n hnrest hndrest ?_ hdict
        intro m' hm'
        exact hmiss m' (List.mem_cons_of_mem m hm')

theorem sqrt_nine_eq_three : Real.sqrt 9 = 3 := by
  rw [show (9 : ℝ) = 3 ^ 2 by norm_num]
  exact Real.sqrt_sq (by norm_num)

theorem sqrt_fortynine_eq_seven : Real.sqrt 49 = 7 := by
  rw [show (49 : ℝ) = 7 ^ 2 by norm_num]
  exact Real.sqrt_sq (by norm_num)


theorem sortedNodes_exPyGraph57 : sortedNodes exPyGraph57 = [5, 7] := by
  show Finset.sort (fun a b => a ≤ b) (insert 5 {7}) = [5, 7]
  rw [Finset.sort_insert]
  · rw [Finset.sort_singleton]
  · intro b hb
    rw [Finset.mem_singleton] at hb
    omega
  · decide

theorem kdquery_anchor_eval :
    kdQuery ((sortedNodes exPyGraph57).map exCentroidsAnchor) (exCentroidsAnchor 2) =
      ((3 : ℝ), 0) := by
  have hc2 : exCentroidsAnchor 2 = ((3 : ℝ), (0 : ℝ), (0 : ℝ)) := by
    norm_num [exCentroidsAnchor]
  have hc5 : exCentroidsAnchor 5 = ((0 : ℝ), (0 : ℝ), (0 : ℝ)) := by
    norm_num [exCentroidsAnchor]
  have hc7 : exCentroidsAnchor 7 = ((10 : ℝ), (0 : ℝ), (0 : ℝ)) := by
    norm_num [exCentroidsAnchor]
  have hd1 : norm3 (vsub ((3 : ℝ), (0 : ℝ), (0 : ℝ)) ((0 : ℝ), (0 : ℝ), (0 : ℝ))) = 3 := by
    have h : dot3 (vsub ((3 : ℝ), (0 : ℝ), (0 : ℝ)) ((0 : ℝ), (0 : ℝ), (0 : ℝ)))
        (vsub ((3 : ℝ), (0 : ℝ), (0 : ℝ)) ((0 : ℝ), (0 : ℝ), (0 : ℝ))) = 9 := by
      norm_num [vsub, dot3]
    rw [norm3, h, sqrt_nine_eq_three]
  have hd2 : norm3 (vsub ((3 : ℝ), (0 : ℝ), (0 : ℝ)) ((10 : ℝ), (0 : ℝ), (0 : ℝ))) = 7 := by
    have h : dot3 (vsub ((3 : ℝ), (0 : ℝ), (0 : ℝ)) ((10 : ℝ), (0 : ℝ), (0 : ℝ)))
        (vsub ((3 : ℝ), (0 : ℝ), (0 : ℝ)) ((10 : ℝ), (0 : ℝ), (0 : ℝ))) = 49 := by
      norm_num [vsub, dot3]
    rw [norm3, h, sqrt_fortynine_eq_seven]
  rw [sortedNodes_exPyGraph57, hc2]
  simp only [List.map_cons, List.map_nil, hc5, hc7]
  simp only [kdQuery, kdQueryAux, hd1, hd2]
  norm_num

theorem reconnect_anchor_eval :
    reconnect_non_removable_nodes exCentroidsAnchor exPyGraph57 [2] [] 1 =
      some (exPyGraph57, ({0} : Finset ℕ)) := by
  unfold reconnect_non_removable_nodes
  rw [if_neg (by rw [sortedNodes_exPyGraph57]; simp)]
  simp only [reconnect_unchecked_loop, List.foldl_cons, List.foldl_nil]
  unfold reconnect_checked_step
  rw [if_neg (by decide : ¬ (2 : ℕ) ∈ exPyGraph57.nodes)]
  dsimp only
  rw [kdquery_anchor_eval]
  rw [if_neg (by norm_num : ¬ ((3 : ℝ), (0 : ℕ)).1 ≤ 1)]
  decide

/-- Counterexample for C6: reconnecting the checked anchor `2` (three
units from its nearest surviving node `5`, beyond `max_distance = 1`)
returns the frontier set `{0}` — the raw kd-tree index of the nearest
node — although the nearest surviving node's id is `5`; the substituted
value `0` is not the nearest node id and is not even a node of the
graph. -/
theorem anchor_substitutes_index_not_node_id :
    reconnect_non_removable_nodes exCentroidsAnchor exPyGraph57 [2] [] 1 =
      some (exPyGraph57, ({0} : Finset ℕ)) ∧
    borderlessDict (sortedNodes exPyGraph57)
      (kdQuery ((sortedNodes exPyGraph57).map exCentroidsAnchor) (exCentroidsAnchor 2)).2 = 5 ∧
    (5 : ℕ) ∉ ({0} : Finset ℕ) ∧
    (0 : ℕ) ∉ exPyGraph57.nodes := by
  refine ⟨reconnect_anchor_eval, ?_, by decide, by decide⟩
  rw [kdquery_anchor_eval, sortedNodes_exPyGraph57]
  decide

/-- C6 as amended: during anchor reconnection, a checked anchor that is
missing from the graph is reinserted with a single edge to its nearest
surviving node exactly when the nearest surviving node lies within
`max_distance` (`border_threshold + 1.0` in `prepare_graph`); otherwise
the anchor stays out of the graph and the kd-tree *index* of the nearest
surviving node in the sorted surviving-node list (not that node's id) is
substituted into the returned frontier set. -/
theorem reconnect_checked_anchor_rule (c : ℕ → V3) (G : PyGraph)
    (checked unchecked : List ℕ) (maxd : ℝ) (n : ℕ) (Gf : PyGraph) (Sf : Finset ℕ)
    (hn : n ∈ checked) (hnd : checked.Nodup)
    (hmiss : ∀ m ∈ checked, m ∉ (reconnect_unchecked_loop c (sortedNodes G) unchecked G).nodes)
    (hres : reconnect_non_removable_nodes c G checked unchecked maxd = some (Gf, Sf)) :
    ((kdQuery ((sortedNodes G).map c) (c n)).1 ≤ maxd →
        n ∈ Sf ∧ n ∈ Gf.nodes ∧
        normPair n (borderlessDict (sortedNodes G)
          (kdQuery ((sortedNodes G).map c) (c n)).2) ∈ Gf.edges) ∧
    (¬ (kdQuery ((sortedNodes G).map c) (c n)).1 ≤ maxd →
        (kdQuery ((sortedNodes G).map c) (c n)).2 ∈ Sf ∧ n ∉ Gf.nodes) := by
  unfold reconnect_non_removable_nodes at hres
  by_cases hb : sortedNodes G = []
  · rw [if_pos hb] at hres
    exact absurd hres (by simp)
  · rw [if_neg hb] at hres
    have hfold :
        (checked.foldl
          (reconnect_checked_step c (sortedNodes G) maxd)
          (reconnect_unchecked_loop c (sortedNodes G) unchecked G, (∅ : Finset ℕ))) =
        (Gf, Sf) := Option.some.inj hres
    have hdict : ∀ i, i < (sortedNodes G).length →
        borderlessDict (sortedNodes G) i ∈
          (reconnect_unchecked_loop c (sortedNodes G) unchecked G).nodes := by
      intro i hi
      exact reconnect_unchecked_loop_nodes_subset c (sortedNodes G) unchecked G
        (borderlessDict_mem_of_lt G i hi)
    have hspec := reconnect_checked_fold_spec c (sortedNodes G) maxd hb checked
      (reconnect_unchecked_loop c (sortedNodes G) unchecked G, (∅ : Finset ℕ)) n
      hn hnd hmiss hdict
    rw [hfold] at hspec
    exact hspec

/-- Witness for the amended C6 at the fixture: anchor `2` is farther than
`max_distance = 1` from its nearest surviving node, so the kd-tree index
`0` ends up in the returned frontier set and `2` stays out of the
graph. -/
theorem reconnect_checked_anchor_rule_witness :
    (kdQuery ((sortedNodes exPyGraph57).map exCentroidsAnchor) (exCentroidsAnchor 2)).2 ∈
      ({0} : Finset ℕ) ∧
    (2 : ℕ) ∉ exPyGraph57.nodes := by
  have h := reconnect_checked_anchor_rule exCentroidsAnchor exPyGraph57 [2] [] 1 2
    exPyGraph57 {0}
    (by decide) (by decide)
    (by
      intro m hm
      have : m = 2 := by simpa using hm
      subst this
      simp only [reconnect_unchecked_loop]
      decide)
    reconnect_anchor_eval
  exact h.2 (by rw [kdquery_anchor_eval]; norm_num)

/-! ### Heap-pop lemmas -/

theorem popMin_eq_none {α : Type} [LinearOrder α] :
    ∀ {l : List (α × ℕ × ℕ)}, popMin l = none → l = [] := by
  intro l h
  cases l with
  | nil => rfl
  | cons e es =>
    cases hes : popMin es with
    | none =>
      simp only [popMin, hes] at h
      exact Option.noConfusion h
    | some p =>
      obtain ⟨m', rest'⟩ := p
      simp only [popMin, hes] at h
      split at h <;> simp at h

theorem popMin_mem {α : Type} [LinearOrder α] :
    ∀ {l : List (α × ℕ × ℕ)} {m : α × ℕ × ℕ} {rest : List (α × ℕ × ℕ)},
      popMin l = some (m, rest) → m ∈ l := by
  intro l
  induction l with
  | nil => intro m rest h; simp [popMin] at h
  | cons e es ih =>
    intro m rest h
    cases hes : popMin es with
    | none =>
      simp only [popMin, hes] at h
      obtain ⟨h1, _⟩ := Prod.mk.injEq .. ▸ Option.some.inj h
      exact h1 ▸ List.mem_cons_self e es
    | some p =>
      obtain ⟨m', rest'⟩ := p
      simp only [popMin, hes] at h
      split at h
      · obtain ⟨h1, _⟩ := Prod.mk.injEq .. ▸ Option.some.inj h
        exact h1 ▸ List.mem_cons_self e es
      · obtain ⟨h1, _⟩ := Prod.mk.injEq .. ▸ Option.some.inj h
        exact h1 ▸ List.mem_cons_of_mem e (ih hes)

theorem popMin_le {α : Type} [LinearOrder α] :
    ∀ {l : List (α × ℕ × ℕ)} {m : α × ℕ × ℕ} {rest : List (α × ℕ × ℕ)},
      popMin l = some (m, rest) → ∀ e ∈ l, m.1 ≤ e.1 := by
  intro l
  induction l with
  | nil => intro m rest h; simp [popMin] at h
  | cons e es ih =>
    intro m rest h x hx
    cases hes : popMin es with
    | none =>
      have hnil : es = [] := popMin_eq_none hes
      simp only [popMin, hes] at h
      obtain ⟨h1, _⟩ := Prod.mk.injEq .. ▸ Option.some.inj h
      subst hnil
      rcases List.mem_cons.mp hx with rfl | hx'
      · exact le_of_eq (congrArg Prod.fst h1.symm)
      · exact absurd hx' (List.not_mem_nil x)
    | some p =>
      obtain ⟨m', rest'⟩ := p
      simp only [popMin, hes] at h
      split at h
      · rename_i hc
        obtain ⟨h1, _⟩ := Prod.mk.injEq .. ▸ Option.some.inj h
        subst h1
        rcases List.mem_cons.mp hx with rfl | hx'
        · exact le_rfl
        · have hm'le := ih hes x hx'
          rcases hc with hlt | ⟨heq, _⟩
          · exact le_trans (le_of_lt hlt) hm'le
          · exact le_trans (le_of_eq heq) hm'le
      · rename_i hc
        obtain ⟨h1, _⟩ := Prod.mk.injEq .. ▸ Option.some.inj h
        subst h1
        push_neg at hc
        rcases List.mem_cons.mp hx with rfl | hx'
        · exact hc.1
        · exact ih hes x hx'

theorem popMin_perm {α : Type} [LinearOrder α] :
    ∀ {l : List (α × ℕ × ℕ)} {m : α × ℕ × ℕ} {rest : List (α × ℕ × ℕ)},
      popMin l = some (m, rest) → l.Perm (m :: rest) := by
  intro l
  induction l with
  | nil => intro m rest h; simp [popMin] at h
  | cons e es ih =>
    intro m rest h
    cases hes : popMin es with
    | none =>
      simp only [popMin, hes] at h
      obtain ⟨h1, h2⟩ := Prod.mk.injEq .. ▸ Option.some.inj h
      rw [← h1, ← h2]
    | some p =>
      obtain ⟨m', rest'⟩ := p
      simp only [popMin, hes] at h
      split at h
      · obtain ⟨h1, h2⟩ := Prod.mk.injEq .. ▸ Option.some.inj h
        rw [← h1, ← h2]
      · obtain ⟨h1, h2⟩ := Prod.mk.injEq .. ▸ Option.some.inj h
        rw [← h1, ← h2]
        exact List.Perm.trans (List.Perm.cons e (ih hes)) (List.Perm.swap m' e rest')

theorem popMin_mem_rest {α : Type} [LinearOrder α] {l : List (α × ℕ × ℕ)}
    {m e : α × ℕ × ℕ} {rest : List (α × ℕ × ℕ)}
    (h : popMin l = some (m, rest)) (he : e ∈ l) (hne : e ≠ m) : e ∈ rest := by
  have := (popMin_perm h).mem_iff.mp he
  rcases List.mem_cons.mp this with rfl | h'
  · exact absurd rfl hne
  · exact h'

theorem popMin_rest_subset {α : Type} [LinearOrder α] {l : List (α × ℕ × ℕ)}
    {m : α × ℕ × ℕ} {rest : List (α × ℕ × ℕ)}
    (h : popMin l = some (m, rest)) : ∀ e ∈ rest, e ∈ l := by
  intro e he
  exact (popMin_perm h).mem_iff.mpr (List.mem_cons_of_mem m he)

/-! ### Path-cost bookkeeping -/

theorem pathCost_concat {α : Type} [LinearOrderedAddCommMonoid α] (w0 : ℕ → ℕ → α) :
    ∀ (p : List ℕ) (v u : ℕ), p.getLast? = some v →
      pathCost w0 (p ++ [u]) = pathCost w0 p + w0 v u := by
  intro p
  induction p with
  | nil => intro v u h; simp at h
  | cons a rest ih =>
    intro v u h
    cases rest with
    | nil =>
      rw [List.getLast?_singleton] at h
      injection h with h'
      subst h'
      simp [pathCost]
    | cons b rest' =>
      rw [List.getLast?_cons_cons] at h
      have := ih v u h
      simp only [List.cons_append] at this ⊢
      rw [pathCost, this, pathCost, add_assoc]

theorem costInv_pred_append {α : Type} [LinearOrderedAddCommMonoid α] {w0 : ℕ → ℕ → α}
    {s : DState α} (v u : ℕ) (h : CostInv w0 s) : CostInv w0 (pred_append v u s) :=
  ⟨h.seen_paths, h.fringe_seen, h.seen_fringe, h.dist_seen⟩

theorem push_update_seen_self {α : Type} (v u : ℕ) (vud : α) (s : DState α) :
    (push_update v u vud s).seen u = some vud := by
  simp [push_update]

theorem push_update_seen_other {α : Type} (v u x : ℕ) (vud : α) (s : DState α)
    (h : x ≠ u) : (push_update v u vud s).seen x = s.seen x := by
  simp [push_update, h]

theorem push_update_paths_self {α : Type} (v u : ℕ) (vud : α) (s : DState α) :
    (push_update v u vud s).paths u = some ((s.paths v).getD [] ++ [u]) := by
  simp [push_update]

theorem push_update_paths_other {α : Type} (v u x : ℕ) (vud : α) (s : DState α)
    (h : x ≠ u) : (push_update v u vud s).paths x = s.paths x := by
  simp [push_update, h]

theorem push_update_dist {α : Type} (v u : ℕ) (vud : α) (s : DState α) :
    (push_update v u vud s).dist = s.dist := rfl

theorem push_update_fringe {α : Type} (v u : ℕ) (vud : α) (s : DState α) :
    (push_update v u vud s).fringe = (vud, s.counter, u) :: s.fringe := rfl

theorem push_update_finals {α : Type} (v u : ℕ) (vud : α) (s : DState α) :
    (push_update v u vud s).finals = s.finals := rfl

theorem costInv_push_update {α : Type} [LinearOrderedAddCommMonoid α] {w0 : ℕ → ℕ → α}
    {s : DState α} {v u : ℕ} {dv : α}
    (hCI : CostInv w0 s)
    (hdv : s.dist v = some dv)
    (hdu : s.dist u = none)
    (hcase : s.seen u = none ∨ (∃ su, s.seen u = some su ∧ dv + w0 v u < su)) :
    CostInv w0 (push_update v u (dv + w0 v u) s) := by
  have hvu : v ≠ u := by
    intro hvu
    rw [hvu, hdu] at hdv
    exact Option.noConfusion hdv
  obtain ⟨pv, hpv, hpc, hpl⟩ := hCI.seen_paths v dv (hCI.dist_seen v dv hdv)
  constructor
  · intro x sx hsx
    by_cases hx : x = u
    · subst hx
      rw [push_update_seen_self] at hsx
      injection hsx with hsx'
      refine ⟨pv ++ [x], ?_, ?_, List.getLast?_concat pv⟩
      · rw [push_update_paths_self, hpv, Option.getD_some]
      · rw [← hsx', pathCost_concat w0 pv v x hpl, hpc]
    · rw [push_update_seen_other v u x _ s hx] at hsx
      obtain ⟨p, hp, hc, hl⟩ := hCI.seen_paths x sx hsx
      exact ⟨p, (push_update_paths_other v u x _ s hx) ▸ hp, hc, hl⟩
  · intro e he
    rw [push_update_fringe] at he
    rcases List.mem_cons.mp he with rfl | he'
    · exact ⟨dv + w0 v u, push_update_seen_self v u _ s, le_rfl⟩
    · obtain ⟨su', hsu', hle'⟩ := hCI.fringe_seen e he'
      by_cases hx : e.2.2 = u
      · rw [hx] at hsu' ⊢
        rcases hcase with hnone | ⟨su, hsu, hlt⟩
        · rw [hnone] at hsu'
          exact Option.noConfusion hsu'
        · rw [hsu] at hsu'
          injection hsu' with hsu''
          exact ⟨dv + w0 v u, push_update_seen_self v u _ s,
            le_trans (le_of_lt hlt) (hsu'' ▸ hle')⟩
      · exact ⟨su', (push_update_seen_other v u _ _ s hx) ▸ hsu', hle'⟩
  · intro x sx hsx hdx
    rw [push_update_dist] at hdx
    by_cases hx : x = u
    · subst hx
      rw [push_update_seen_self] at hsx
      injection hsx with hsx'
      rw [push_update_fringe, ← hsx']
      exact ⟨s.counter, List.mem_cons_self _ _⟩
    · rw [push_update_seen_other v u x _ s hx] at hsx
      obtain ⟨cc, hin⟩ := hCI.seen_fringe x sx hsx hdx
      rw [push_update_fringe]
      exact ⟨cc, List.mem_cons_of_mem _ hin⟩
  · intro x dx hdx
    rw [push_update_dist] at hdx
    by_cases hx : x = u
    · subst hx
      rw [hdu] at hdx
      exact Option.noConfusion hdx
    · rw [push_update_seen_other v u x _ s hx]
      exact hCI.dist_seen x dx hdx

/-! ### Relaxation-loop preservation lemmas -/

theorem relax_neighbors_preserves {α : Type} [LinearOrderedAddCommMonoid α] (w : Weight α)
    (cutoff : Option α) (v : ℕ) (dv : α) :
    ∀ (us : List ℕ) (s s' : DState α),
      relax_neighbors w cutoff v dv us s = some s' →
      s'.dist = s.dist ∧ s'.finals = s.finals := by
  intro us
  induction us with
  | nil =>
    intro s s' h
    simp only [relax_neighbors] at h
    injection h with h'
    rw [h']
    exact ⟨rfl, rfl⟩
  | cons u us ih =>
    intro s s' h
    cases hwv : w v u ((s.pred v).getD []) with
    | none =>
      simp only [relax_neighbors, hwv] at h
      exact ih s s' h
    | some cost =>
      simp only [relax_neighbors, hwv] at h
      split at h
      · exact ih s s' h
      · split at h
        · rename_i du hdu
          split at h
          · exact absurd h (by simp)
          · exact ih s s' h
        · split at h
          · exact ih (push_update v u (dv + cost) s) s' h
          · split at h
            · exact ih (push_update v u (dv + cost) s) s' h
            · split at h
              · exact ih (pred_append v u s) s' h
              · exact ih s s' h

theorem relax_cost {α : Type} [LinearOrderedAddCommMonoid α] (w : Weight α) (w0 : ℕ → ℕ → α)
    (hw : ∀ a b ps, w a b ps = some (w0 a b)) (cutoff : Option α) (v : ℕ) (dv : α) :
    ∀ (us : List ℕ) (s s' : DState α),
      relax_neighbors w cutoff v dv us s = some s' →
      CostInv w0 s → s.dist v = some dv →
      CostInv w0 s' := by
  intro us
  induction us with
  | nil =>
    intro s s' h hCI _
    simp only [relax_neighbors] at h
    injection h with h'
    exact h' ▸ hCI
  | cons u us ih =>
    intro s s' h hCI hdv
    simp only [relax_neighbors, hw v u ((s.pred v).getD [])] at h
    split at h
    · exact ih s s' h hCI hdv
    · split at h
      · split at h
        · exact absurd h (by simp)
        · exact ih s s' h hCI hdv
      · rename_i hdu
        split at h
        · rename_i hsu
          have hCI' := costInv_push_update hCI hdv hdu (Or.inl hsu)
          exact ih (push_update v u (dv + w0 v u) s) s' h hCI' hdv
        · rename_i su hsu
          split at h
          · rename_i hlt
            have hCI' := costInv_push_update hCI hdv hdu (Or.inr ⟨su, hsu, hlt⟩)
            exact ih (push_update v u (dv + w0 v u) s) s' h hCI' hdv
          · split at h
            · exact ih (pred_append v u s) s' h (costInv_pred_append v u hCI) hdv
            · exact ih s s' h hCI hdv

theorem monoInv_push_update {α : Type} [LinearOrderedAddCommMonoid α] {s : DState α}
    {v u : ℕ} {dv cost : α} (hM : MonoInv s) (hle : ∀ f ∈ s.finals, f.2 ≤ dv)
    (hc : 0 ≤ cost) : MonoInv (push_update v u (dv + cost) s) := by
  constructor
  · exact hM.finals_chain
  · intro e he f hf
    rw [push_update_fringe] at he
    rcases List.mem_cons.mp he with rfl | he'
    · exact le_trans (hle f hf) (le_add_of_nonneg_right hc)
    · exact hM.finals_le_fringe e he' f hf
  · exact hM.finals_dist

theorem relax_mono {α : Type} [LinearOrderedAddCommMonoid α] (w : Weight α)
    (hw : ∀ a b ps cst, w a b ps = some cst → 0 ≤ cst) (cutoff : Option α)
    (v : ℕ) (dv : α) :
    ∀ (us : List ℕ) (s s' : DState α),
      relax_neighbors w cutoff v dv us s = some s' →
      MonoInv s → (∀ f ∈ s.finals, f.2 ≤ dv) → MonoInv s' := by
  intro us
  induction us with
  | nil =>
    intro s s' h hM _
    simp only [relax_neighbors] at h
    injection h with h'
    exact h' ▸ hM
  | cons u us ih =>
    intro s s' h hM hle
    cases hwv : w v u ((s.pred v).getD []) with
    | none =>
      simp only [relax_neighbors, hwv] at h
      exact ih s s' h hM hle
    | some cost =>
      have hcost : 0 ≤ cost := hw v u _ cost hwv
      simp only [relax_neighbors, hwv] at h
      split at h
      · exact ih s s' h hM hle
      · split at h
        · split at h
          · exact absurd h (by simp)
          · exact ih s s' h hM hle
        · split at h
          · exact ih (push_update v u (dv + cost) s) s' h
              (monoInv_push_update hM hle hcost) hle
          · split at h
            · exact ih (push_update v u (dv + cost) s) s' h
                (monoInv_push_update hM hle hcost) hle
            · split at h
              · exact ih (pred_append v u s) s' h
                  ⟨hM.finals_chain, hM.finals_le_fringe, hM.finals_dist⟩ hle
              · exact ih s s' h hM hle

/-! ### The while-loop preserves the invariants -/

theorem dijkstra_loop_dist_extends {α : Type} [LinearOrderedAddCommMonoid α] (G : SearchGraph)
    (w : Weight α) (cutoff : Option α) (target : Option ℕ) :
    ∀ (fuel : ℕ) (s s' : DState α),
      dijkstra_loop G w cutoff target fuel s = some s' →
      ∀ x dx, s.dist x = some dx → s'.dist x = some dx := by
  intro fuel
  induction fuel with
  | zero => intro s s' h; simp [dijkstra_loop] at h
  | succ n ih =>
    intro s s' h x dx hdx
    cases hpop : popMin s.fringe with
    | none =>
      simp only [dijkstra_loop, hpop] at h
      injection h with h'
      rw [← h']
      exact hdx
    | some pr =>
      obtain ⟨⟨d, cc, v⟩, rest⟩ := pr
      simp only [dijkstra_loop, hpop] at h
      split at h
      · exact ih { s with fringe := rest } s' h x dx hdx
      · rename_i hstale
        have hvnone : s.dist v = none := Option.not_isSome_iff_eq_none.mp hstale
        have hxv : x ≠ v := by
          intro hxv
          rw [hxv, hvnone] at hdx
          exact Option.noConfusion hdx
        have hs1 : (fun n => if n = v then some d else s.dist n) x = some dx := by
          show (if x = v then some d else s.dist x) = some dx
          rw [if_neg hxv]
          exact hdx
        split at h
        · injection h with h'
          rw [← h']
          exact hs1
        · cases hrel : relax_neighbors w cutoff v d (G.adj v)
              { s with
                fringe := rest,
                dist := fun n => if n = v then some d else s.dist n,
                finals := s.finals ++ [(v, d)] } with
          | none => rw [hrel] at h; exact absurd h (by simp)
          | some s2 =>
            rw [hrel] at h
            have hpres := relax_neighbors_preserves w cutoff v d (G.adj v) _ s2 hrel
            apply ih s2 s' h x dx
            rw [hpres.1]
            exact hs1

theorem dijkstra_loop_cost {α : Type} [LinearOrderedAddCommMonoid α] (G : SearchGraph)
    (w : Weight α) (w0 : ℕ → ℕ → α) (hw : ∀ a b ps, w a b ps = some (w0 a b))
    (cutoff : Option α) (target : Option ℕ) :
    ∀ (fuel : ℕ) (s s' : DState α),
      dijkstra_loop G w cutoff target fuel s = some s' →
      CostInv w0 s → CostInv w0 s' := by
  intro fuel
  induction fuel with
  | zero => intro s s' h; simp [dijkstra_loop] at h
  | succ n ih =>
    intro s s' h hCI
    cases hpop : popMin s.fringe with
    | none =>
      simp only [dijkstra_loop, hpop] at h
      injection h with h'
      exact h' ▸ hCI
    | some pr =>
      obtain ⟨⟨d, cc, v⟩, rest⟩ := pr
      simp only [dijkstra_loop, hpop] at h
      split at h
      · rename_i hstale
        apply ih { s with fringe := rest } s' h
        constructor
        · exact hCI.seen_paths
        · intro e he
          exact hCI.fringe_seen e (popMin_rest_subset hpop e he)
        · intro x sx hsx hdx
          obtain ⟨cc', hin⟩ := hCI.seen_fringe x sx hsx hdx
          refine ⟨cc', popMin_mem_rest hpop hin ?_⟩
          intro heq
          have hxv : x = v := congrArg (fun t => t.2.2) heq
          rw [hxv] at hdx
          rw [hdx] at hstale
          exact absurd hstale (by simp)
        · exact hCI.dist_seen
      · rename_i hstale
        have hvnone : s.dist v = none := Option.not_isSome_iff_eq_none.mp hstale
        have hmem := popMin_mem hpop
        obtain ⟨sv, hsv, hsvle⟩ := hCI.fringe_seen (d, cc, v) hmem
        obtain ⟨cc2, hin2⟩ := hCI.seen_fringe v sv hsv hvnone
        have hdle : d ≤ sv := popMin_le hpop (sv, cc2, v) hin2
        have hsvd : sv = d := le_antisymm hsvle hdle
        rw [hsvd] at hsv
        have hCI1 : CostInv w0
            ({ s with
              fringe := rest,
              dist := fun n => if n = v then some d else s.dist n,
              finals := s.finals ++ [(v, d)] } : DState α) := by
          constructor
          · exact hCI.seen_paths
          · intro e he
            exact hCI.fringe_seen e (popMin_rest_subset hpop e he)
          · intro x sx hsx hdx
            have hxv : x ≠ v := by
              intro hxv
              have h1 : (if x = v then some d else s.dist x) = none := hdx
              rw [if_pos hxv] at h1
              exact Option.noConfusion h1
            have hdx' : s.dist x = none := by
              have h1 : (if x = v then some d else s.dist x) = none := hdx
              rwa [if_neg hxv] at h1
            obtain ⟨cc', hin⟩ := hCI.seen_fringe x sx hsx hdx'
            refine ⟨cc', popMin_mem_rest hpop hin ?_⟩
            intro heq
            exact hxv (congrArg (fun t => t.2.2) heq)
          · intro x dx hdx
            by_cases hxv : x = v
            · subst hxv
              have h1 : (if x = x then some d else s.dist x) = some dx := hdx
              rw [if_pos rfl] at h1
              injection h1 with h2
              rw [← h2]
              exact hsv
            · have h1 : (if x = v then some d else s.dist x) = some dx := hdx
              rw [if_neg hxv] at h1
              exact hCI.dist_seen x dx h1
        split at h
        · injection h with h'
          exact h' ▸ hCI1
        · cases hrel : relax_neighbors w cutoff v d (G.adj v)
              { s with
                fringe := rest,
                dist := fun n => if n = v then some d else s.dist n,
                finals := s.finals ++ [(v, d)] } with
          | none => rw [hrel] at h; exact absurd h (by simp)
          | some s2 =>
            rw [hrel] at h
            have hdv1 : (fun n => if n = v then some d else s.dist n) v = some d := by
              show (if v = v then some d else s.dist v) = some d
              rw [if_pos rfl]
            have hCI2 := relax_cost w w0 hw cutoff v d (G.adj v) _ s2 hrel hCI1 hdv1
            exact ih s2 s' h hCI2

theorem dijkstra_loop_mono {α : Type} [LinearOrderedAddCommMonoid α] (G : SearchGraph)
    (w : Weight α) (hw : ∀ a b ps cst, w a b ps = some cst → 0 ≤ cst)
    (cutoff : Option α) (target : Option ℕ) :
    ∀ (fuel : ℕ) (s s' : DState α),
      dijkstra_loop G w cutoff target fuel s = some s' →
      MonoInv s → MonoInv s' := by
  intro fuel
  induction fuel with
  | zero => intro s s' h; simp [dijkstra_loop] at h
  | succ n ih =>
    intro s s' h hM
    cases hpop : popMin s.fringe with
    | none =>
      simp only [dijkstra_loop, hpop] at h
      injection h with h'
      exact h' ▸ hM
    | some pr =>
      obtain ⟨⟨d, cc, v⟩, rest⟩ := pr
      simp only [dijkstra_loop, hpop] at h
      split at h
      · apply ih { s with fringe := rest } s' h
        exact ⟨hM.finals_chain,
          fun e he f hf => hM.finals_le_fringe e (popMin_rest_subset hpop e he) f hf,
          hM.finals_dist⟩
      · rename_i hstale
        have hvnone : s.dist v = none := Option.not_isSome_iff_eq_none.mp hstale
        have hmem := popMin_mem hpop
        have hfled : ∀ f ∈ s.finals, f.2 ≤ d := fun f hf => hM.finals_le_fringe _ hmem f hf
        have hM1 : MonoInv
            ({ s with
              fringe := rest,
              dist := fun n => if n = v then some d else s.dist n,
              finals := s.finals ++ [(v, d)] } : DState α) := by
          constructor
          · show List.Chain' (fun x y => x ≤ y) ((s.finals ++ [(v, d)]).map Prod.snd)
            rw [List.map_append]
            refine List.chain'_append.mpr ⟨hM.finals_chain, List.chain'_singleton d, ?_⟩
            intro x hx y hy
            have hxl : x ∈ s.finals.map Prod.snd := List.mem_of_mem_getLast? hx
            obtain ⟨f, hf, hfx⟩ := List.mem_map.mp hxl
            have hyd : y = d := by
              simp only [List.map_cons, List.map_nil, List.head?_cons, Option.mem_def,
                Option.some.injEq] at hy
              exact hy.symm
            rw [← hfx, hyd]
            exact hfled f hf
          · intro e he f hf
            have hef : e ∈ rest := he
            rcases List.mem_append.mp hf with hf' | hf'
            · exact hM.finals_le_fringe e (popMin_rest_subset hpop e hef) f hf'
            · have : f = (v, d) := by simpa using hf'
              rw [this]
              exact popMin_le hpop e (popMin_rest_subset hpop e hef)
          · intro f hf
            rcases List.mem_append.mp hf with hf' | hf'
            · have hfd := hM.finals_dist f hf'
              have hfv : f.1 ≠ v := by
                intro hfv
                rw [hfv, hvnone] at hfd
                exact Option.noConfusion hfd
              show (if f.1 = v then some d else s.dist f.1) = some f.2
              rw [if_neg hfv]
              exact hfd
            · have : f = (v, d) := by simpa using hf'
              rw [this]
              show (if v = v then some d else s.dist v) = some d
              rw [if_pos rfl]
        split at h
        · injection h with h'
          exact h' ▸ hM1
        · cases hrel : relax_neighbors w cutoff v d (G.adj v)
              { s with
                fringe := rest,
                dist := fun n => if n = v then some d else s.dist n,
                finals := s.finals ++ [(v, d)] } with
          | none => rw [hrel] at h; exact absurd h (by simp)
          | some s2 =>
            rw [hrel] at h
            have hfled1 : ∀ f ∈ s.finals ++ [(v, d)], f.2 ≤ d := by
              intro f hf
              rcases List.mem_append.mp hf with hf' | hf'
              · exact hfled f hf'
              · have : f = (v, d) := by simpa using hf'
                rw [this]
            have hM2 := relax_mono w hw cutoff v d (G.adj v) _ s2 hrel hM1 hfled1
            exact ih s2 s' h hM2

/-! ### Initialization lemmas -/

theorem init_sources_state {α : Type} [LinearOrderedAddCommMonoid α] (G : SearchGraph) :
    ∀ (l : List ℕ) (s0 s : DState α), init_sources G l s0 = some s →
      s.finals = s0.finals ∧ s.dist = s0.dist ∧ s.paths = s0.paths := by
  intro l
  induction l with
  | nil =>
    intro s0 s h
    simp only [init_sources] at h
    injection h with h'
    rw [← h']
    exact ⟨rfl, rfl, rfl⟩
  | cons src rest ih =>
    intro s0 s h
    simp only [init_sources] at h
    split at h
    · exact ih
        { s0 with
          seen := fun n => if n = src then some 0 else s0.seen n,
          fringe := s0.fringe ++ [((0 : α), s0.counter, src)],
          counter := s0.counter + 1 } s h
    · exact absurd h (by simp)

theorem init_state_cost {α : Type} [LinearOrderedAddCommMonoid α] (w0 : ℕ → ℕ → α)
    (sources : List ℕ) : CostInv w0 (init_state (α := α) sources) := by
  constructor
  · intro u su hsu; exact Option.noConfusion hsu
  · intro e he; exact absurd he (List.not_mem_nil e)
  · intro u su hsu; exact Option.noConfusion hsu
  · intro v dv hdv; exact Option.noConfusion hdv

theorem init_sources_cost {α : Type} [LinearOrderedAddCommMonoid α] (G : SearchGraph)
    (w0 : ℕ → ℕ → α) :
    ∀ (l : List ℕ) (s0 s : DState α),
      init_sources G l s0 = some s →
      CostInv w0 s0 →
      (∀ x ∈ l, s0.paths x = some [x]) →
      (∀ x sx, s0.seen x = some sx → sx = 0) →
      (∀ x, s0.dist x = none) →
      CostInv w0 s := by
  intro l
  induction l with
  | nil =>
    intro s0 s h hCI _ _ _
    simp only [init_sources] at h
    injection h with h'
    exact h' ▸ hCI
  | cons src rest ih =>
    intro s0 s h hCI hpaths hseen0 hdist
    simp only [init_sources] at h
    split at h
    · refine ih
        { s0 with
          seen := fun n => if n = src then some 0 else s0.seen n,
          fringe := s0.fringe ++ [((0 : α), s0.counter, src)],
          counter := s0.counter + 1 } s h ?_ ?_ ?_ ?_
      · constructor
        · intro x sx hsx
          by_cases hx : x = src
          · subst hx
            have h1 : (if x = x then some 0 else s0.seen x) = some sx := hsx
            rw [if_pos rfl] at h1
            injection h1 with h2
            refine ⟨[x], hpaths x (List.mem_cons_self x rest), ?_, rfl⟩
            rw [← h2]
            rfl
          · have h1 : (if x = src then some 0 else s0.seen x) = some sx := hsx
            rw [if_neg hx] at h1
            obtain ⟨p, hp, hc, hl⟩ := hCI.seen_paths x sx h1
            exact ⟨p, hp, hc, hl⟩
        · intro e he
          have he' : e ∈ s0.fringe ++ [((0 : α), s0.counter, src)] := he
          rcases List.mem_append.mp he' with hin | hin
          · obtain ⟨su', hsu', hle'⟩ := hCI.fringe_seen e hin
            by_cases hx : e.2.2 = src
            · refine ⟨0, ?_, ?_⟩
              · show (if e.2.2 = src then some 0 else s0.seen e.2.2) = some 0
                rw [if_pos hx]
              · have hsu0 : su' = 0 := hseen0 _ _ hsu'
                rw [← hsu0]
                exact hle'
            · refine ⟨su', ?_, hle'⟩
              show (if e.2.2 = src then some 0 else s0.seen e.2.2) = some su'
              rw [if_neg hx]
              exact hsu'
          · have heq : e = ((0 : α), s0.counter, src) := by simpa using hin
            subst heq
            refine ⟨0, ?_, le_rfl⟩
            show (if src = src then some 0 else s0.seen src) = some 0
            rw [if_pos rfl]
        · intro x sx hsx hdx
          by_cases hx : x = src
          · subst hx
            have h1 : (if x = x then some 0 else s0.seen x) = some sx := hsx
            rw [if_pos rfl] at h1
            injection h1 with h2
            refine ⟨s0.counter, ?_⟩
            show (sx, s0.counter, x) ∈ s0.fringe ++ [((0 : α), s0.counter, x)]
            rw [← h2]
            exact List.mem_append_right _ (List.mem_singleton.mpr rfl)
          · have h1 : (if x = src then some 0 else s0.seen x) = some sx := hsx
            rw [if_neg hx] at h1
            have hdx' : s0.dist x = none := hdx
            obtain ⟨cc, hin⟩ := hCI.seen_fringe x sx h1 hdx'
            exact ⟨cc, List.mem_append_left _ hin⟩
        · intro x dx hdx
          have h1 : s0.dist x = some dx := hdx
          rw [hdist x] at h1
          exact Option.noConfusion h1
      · intro x hx
        exact hpaths x (List.mem_cons_of_mem src hx)
      · intro x sx hsx
        by_cases hx : x = src
        · subst hx
          have h1 : (if x = x then some 0 else s0.seen x) = some sx := hsx
          rw [if_pos rfl] at h1
          injection h1 with h2
          exact h2.symm
        · have h1 : (if x = src then some 0 else s0.seen x) = some sx := hsx
          rw [if_neg hx] at h1
          exact hseen0 x sx h1
      · intro x
        exact hdist x
    · exact absurd h (by simp)

/-! ### The search cost equals the path cost -/

theorem dijkstra_search_cost_total {α : Type} [LinearOrderedAddCommMonoid α] (G : SearchGraph)
    (w : Weight α) (w0 : ℕ → ℕ → α) (hw : ∀ a b ps, w a b ps = some (w0 a b))
    (sources : List ℕ) (target : ℕ) (cutoff : Option α) (fuel : ℕ)
    (cost : α) (path : List ℕ)
    (h : dijkstra_search G w sources target cutoff fuel = some (cost, path)) :
    cost = pathCost w0 path := by
  unfold dijkstra_search at h
  split at h
  · exact absurd h (by simp)
  · rw [sources_in_sources_eq_false sources] at h
    simp only [Bool.false_eq_true, if_false] at h
    cases hrun : dijkstra_multisource G w cutoff (some target) sources fuel with
    | none => rw [hrun] at h; exact absurd h (by simp)
    | some st =>
      rw [hrun] at h
      dsimp only at h
      have hCI : CostInv w0 st := by
        unfold dijkstra_multisource at hrun
        cases hinit : init_sources G sources (init_state (α := α) sources) with
        | none => rw [hinit] at hrun; exact absurd hrun (by simp)
        | some s0 =>
          rw [hinit, Option.some_bind] at hrun
          have hCI0 := init_sources_cost G w0 sources (init_state (α := α) sources) s0 hinit
            (init_state_cost (α := α) w0 sources)
            (fun x hx => by simp [init_state, hx])
            (fun x sx hsx => Option.noConfusion hsx)
            (fun x => rfl)
          exact dijkstra_loop_cost G w w0 hw cutoff (some target) fuel s0 st hrun hCI0
      cases hpt : st.paths target with
      | none =>
        cases hdt : st.dist target with
        | none => simp [hpt, hdt] at h
        | some dt => simp [hpt, hdt] at h
      | some pt =>
        cases hdt : st.dist target with
        | none => simp [hpt, hdt] at h
        | some dt =>
          simp only [hpt, hdt] at h
          injection h with h'
          have hdc : dt = cost := congrArg Prod.fst h'
          have hpc2 : pt = path := congrArg Prod.snd h'
          have hseen := hCI.dist_seen target dt hdt
          obtain ⟨p, hp, hc, _⟩ := hCI.seen_paths target dt hseen
          rw [hpt] at hp
          injection hp with hpp
          rw [← hdc, ← hpc2, hpp]
          exact hc.symm

/-- C1: for the SHORTEST metric, whenever `dijkstra_search` returns a
result for a target, the returned cost equals the sum of the Euclidean
distances between the centroids of consecutive nodes along the returned
path. -/
theorem shortest_cost_equals_path_length (centroids : ℕ → V3) (G : SearchGraph)
    (sources : List ℕ) (target : ℕ) (cutoff : Option ℝ) (fuel : ℕ)
    (cost : ℝ) (path : List ℕ)
    (h : dijkstra_search G (shortest_metric_weight centroids) sources target cutoff fuel =
      some (cost, path)) :
    cost = pathCost (weight_euclidean_distance centroids) path :=
  dijkstra_search_cost_total G (shortest_metric_weight centroids)
    (weight_euclidean_distance centroids) (fun _ _ _ => rfl)
    sources target cutoff fuel cost path h

/-- Witness for C1 at a concrete one-node graph: the search returns cost
`0` with path `[0]`, whose Euclidean path cost is `0`. -/
theorem shortest_cost_equals_path_length_witness :
    dijkstra_search exGraphSingle0 (shortest_metric_weight exCentroidsZero) [0] 0 none 5 =
      some ((0 : ℝ), [0]) ∧
    (0 : ℝ) = pathCost (weight_euclidean_distance exCentroidsZero) [0] :=
  ⟨rfl, shortest_cost_equals_path_length exCentroidsZero exGraphSingle0 [0] 0 none 5
    0 [0] rfl⟩

/-- C2: during one `_dijkstra_multisource` run with non-negative edge
weights, a `dist` entry is never changed after being assigned (the loop
only extends `dist`), and the ghost history of finalized `(node, d)`
assignments — the non-stale pops — carries non-decreasing `d` values and
agrees with the final `dist`. -/
theorem dijkstra_dist_immutable_and_pops_monotone {α : Type}
    [LinearOrderedAddCommMonoid α]
    (G : SearchGraph) (w : Weight α) (cutoff : Option α) (target : Option ℕ)
    (hw : ∀ a b ps cst, w a b ps = some cst → 0 ≤ cst) :
    (∀ (fuel : ℕ) (s s' : DState α),
        dijkstra_loop G w cutoff target fuel s = some s' →
        ∀ x dx, s.dist x = some dx → s'.dist x = some dx) ∧
    (∀ (sources : List ℕ) (fuel : ℕ) (s' : DState α),
        dijkstra_multisource G w cutoff target sources fuel = some s' →
        List.Chain' (fun a b => a ≤ b) (s'.finals.map Prod.snd) ∧
        ∀ f ∈ s'.finals, s'.dist f.1 = some f.2) := by
  constructor
  · exact dijkstra_loop_dist_extends G w cutoff target
  · intro sources fuel s' h
    unfold dijkstra_multisource at h
    cases hinit : init_sources G sources (init_state (α := α) sources) with
    | none => rw [hinit] at h; exact absurd h (by simp)
    | some s0 =>
      rw [hinit, Option.some_bind] at h
      have hfin : s0.finals = [] :=
        (init_sources_state G sources (init_state (α := α) sources) s0 hinit).1
      have hM0 : MonoInv s0 := by
        constructor
        · rw [hfin]
          exact List.chain'_nil
        · intro e he f hf
          rw [hfin] at hf
          exact absurd hf (List.not_mem_nil f)
        · intro f hf
          rw [hfin] at hf
          exact absurd hf (List.not_mem_nil f)
      have hM := dijkstra_loop_mono G w hw cutoff target fuel s0 s' h hM0
      exact ⟨hM.finals_chain, hM.finals_dist⟩

/-- Witness for C2 at the two-node graph `0 — 1` with unit weights: the
run from source `0` to target `1` finalizes `0` then `1` with distances
`0` and `1`, a non-decreasing sequence. -/
theorem dijkstra_dist_immutable_and_pops_monotone_witness :
    ((dijkstra_multisource exGraphPair exWeightOne none (some 1) [0] 9).map
      (fun s => s.finals.map Prod.snd)).getD [] = [0, 1] ∧
    List.Chain' (fun a b : ℕ => a ≤ b)
      (((dijkstra_multisource exGraphPair exWeightOne none (some 1) [0] 9).map
        (fun s => s.finals.map Prod.snd)).getD []) := by
  have hw : ∀ (a b : ℕ) (ps : List ℕ) (cst : ℕ), exWeightOne a b ps = some cst → 0 ≤ cst :=
    fun _ _ _ cst _ => Nat.zero_le cst
  refine ⟨by decide, ?_⟩
  cases hrun : dijkstra_multisource exGraphPair exWeightOne none (some 1) [0] 9 with
  | none => simp
  | some s' =>
    have h := (dijkstra_dist_immutable_and_pops_monotone exGraphPair exWeightOne none
      (some 1) hw).2 [0] 9 s' hrun
    simpa using h.1
